import Mathlib

set_option maxHeartbeats 1000000

/-!
Shallow embedding of `src/transform_json.py`: a decoder that turns a
tagged, type-annotated JSON document (every value wrapped in a
single-entry mapping from a type tag S/N/BOOL/NULL/L/M to a raw payload)
into a plain JSON document.

Modelling conventions:
* JSON values (the result of `json.loads`) are the inductive `Json`;
  JSON numbers are carried as rationals.
* Decoded output values are the inductive `Value`; the Python `None`
  omission sentinel is `Option.none`, and Python exceptions escaping a
  function (`TypeError` from `strptime`, `AttributeError` from calling a
  string method on a non-string payload) are `Except.error ()`.
* Python `dict` is an insertion-ordered association list with distinct
  keys; `processed[key] = v` is `dictInsert` (update in place, else
  append), and iteration order is list order.
* Characters are treated as ASCII for digit tests, lowercasing and
  whitespace trimming (Python's `str.strip`/`str.lower` and `re`'s `\d`
  also accept further Unicode characters; no claim depends on these).
* `time.mktime` converts a local-time struct to epoch seconds depending
  on the process environment's timezone; it is abstracted as a parameter
  `mk : Tm → Int` threaded through the decoder.
-/

/-- JSON values as produced by `json.loads`. -/
inductive Json where
| null : Json
| bool (b : Bool) : Json
| num (q : ℚ) : Json
| str (s : String) : Json
| arr (items : List Json) : Json
| obj (fields : List (String × Json)) : Json

/-- Decoded plain values built by the decoder. -/
inductive Value where
| null : Value
| bool (b : Bool) : Value
| int (n : Int) : Value
| float (q : ℚ) : Value
| str (s : String) : Value
| list (items : List Value) : Value
| map (fields : List (String × Value)) : Value

/-- The fields of the `struct_time` that `datetime.strptime` fills in and
`datetime.timetuple` hands to `time.mktime`. -/
structure Tm where
  year : Nat
  month : Nat
  day : Nat
  hour : Nat
  minute : Nat
  second : Nat
deriving DecidableEq

/-- `str.strip()` on the character list: drop whitespace from both ends
(character-level model of `String.trim`, kept at the list level so that
terms evaluate by kernel reduction). -/
def pyStripChars (cs : List Char) : List Char :=
  ((cs.dropWhile Char.isWhitespace).reverse.dropWhile Char.isWhitespace).reverse

/-- `str.strip()`. -/
def pyStrip (s : String) : String := String.mk (pyStripChars s.data)

/-- `str.lower()` on one character (ASCII range). -/
def pyLowerChar (c : Char) : Char :=
  if c.toNat ≥ 65 ∧ c.toNat ≤ 90 then Char.ofNat (c.toNat + 32) else c

/-- `str.lower()`. -/
def pyLower (s : String) : String := String.mk (s.data.map pyLowerChar)

/-- `sanitize_key`: trim leading and trailing whitespace from keys. -/
def sanitize_key (key : String) : String := pyStrip key

/-- `sanitize_value`: trim leading and trailing whitespace from string
values; non-strings are returned unchanged. -/
def sanitize_value (value : Json) : Json :=
  match value with
  | .str s => .str (pyStrip s)
  | v => v

/-- Python truthiness (`if not value`) on JSON-decoded values. -/
def pyFalsy (value : Json) : Bool :=
  match value with
  | .null => true
  | .bool b => !b
  | .num q => q == 0
  | .str s => s.data.isEmpty
  | .arr items => items.isEmpty
  | .obj fields => fields.isEmpty

def Json.isStr : Json → Bool
  | .str _ => true
  | _ => false

def Json.isArr : Json → Bool
  | .arr _ => true
  | _ => false

/-- Take the maximal leading run of ASCII digits off a character list,
returning the run and the remainder (the behaviour of a `\d`-run in the
`strptime` regular expression, whose neighbours are non-digit literals). -/
def takeDigits : List Char → List Char × List Char
  | [] => ([], [])
  | c :: rest =>
    if c.isDigit then
      let (ds, r) := takeDigits rest
      (c :: ds, r)
    else ([], c :: rest)

/-- Numeric value of a digit run, most significant first. -/
def digitsVal (ds : List Char) : Nat :=
  ds.foldl (fun a c => 10 * a + (c.toNat - 48)) 0

/-- Gregorian leap-year test, as used by `datetime`'s day-of-month
validation. -/
def isLeap (y : Nat) : Bool :=
  y % 4 == 0 && (y % 100 != 0 || y % 400 == 0)

/-- Number of days in a month, as validated by the `datetime` constructor. -/
def daysInMonth (y m : Nat) : Nat :=
  if m = 2 then (if isLeap y then 29 else 28)
  else if m = 4 ∨ m = 6 ∨ m = 9 ∨ m = 11 then 30 else 31

/--
`datetime.strptime(s, "%Y-%m-%dT%H:%M:%SZ")`, returning the parsed
fields, or `none` when it raises `ValueError`.

CPython compiles the format to the case-insensitive regular expression
`(\d\d\d\d)-(1[0-2]|0[1-9]|[1-9])-(3[01]|[12]\d|0[1-9]|[1-9])T`
`(2[0-3]|[0-1]\d|\d):([0-5]\d|\d):(6[01]|[0-5]\d|\d)Z`
and requires it to consume the whole string; the parsed numbers are then
checked by the `datetime` constructor (`year ≥ 1`, `day` at most the
month length, `second ≤ 59`).  Because every field is a digit run
delimited by non-digit literals, the alternations are equivalent to: the
year is exactly 4 digits, every other field is 1 or 2 digits, and the
values satisfy 1 ≤ month ≤ 12, 1 ≤ day (≤ 31 from the regex, tightened
by `datetime`), hour ≤ 23, minute ≤ 59 and second ≤ 59 (the regex also
admits 60 and 61, which `datetime` then rejects).  The `T` and `Z`
literals match case-insensitively.
-/
def parseTs (s : String) : Option Tm :=
  let (ys, r1) := takeDigits s.data
  match r1 with
  | '-' :: r2 =>
    let (ms, r3) := takeDigits r2
    match r3 with
    | '-' :: r4 =>
      let (ds, r5) := takeDigits r4
      match r5 with
      | tc :: r6 =>
        if tc = 'T' ∨ tc = 't' then
          let (hs, r7) := takeDigits r6
          match r7 with
          | ':' :: r8 =>
            let (mins, r9) := takeDigits r8
            match r9 with
            | ':' :: r10 =>
              let (secs, r11) := takeDigits r10
              match r11 with
              | [zc] =>
                if zc = 'Z' ∨ zc = 'z' then
                  let y := digitsVal ys
                  let mo := digitsVal ms
                  let d := digitsVal ds
                  let h := digitsVal hs
                  let mi := digitsVal mins
                  let sec := digitsVal secs
                  if ys.length = 4 ∧ 1 ≤ y ∧
                     1 ≤ ms.length ∧ ms.length ≤ 2 ∧ 1 ≤ mo ∧ mo ≤ 12 ∧
                     1 ≤ ds.length ∧ ds.length ≤ 2 ∧ 1 ≤ d ∧
                     d ≤ daysInMonth y mo ∧
                     1 ≤ hs.length ∧ hs.length ≤ 2 ∧ h ≤ 23 ∧
                     1 ≤ mins.length ∧ mins.length ≤ 2 ∧ mi ≤ 59 ∧
                     1 ≤ secs.length ∧ secs.length ≤ 2 ∧ sec ≤ 59
                  then some ⟨y, mo, d, h, mi, sec⟩ else none
                else none
              | _ => none
            | _ => none
          | _ => none
        else none
      | _ => none
    | _ => none
  | _ => none

/-- `is_rfc3339`: whether `strptime` with the fixed format succeeds. -/
def is_rfc3339 (s : String) : Bool := (parseTs s).isSome

/-- `process_string`: trim; omit if falsy; convert an accepted timestamp
through `time.mktime` (the `mk` environment parameter fuses `is_rfc3339`
with `rfc3339_to_epoch`); otherwise return the trimmed string.  A truthy
non-string payload reaches `strptime`, which raises `TypeError` (not
caught: `is_rfc3339` catches only `ValueError`). -/
def process_string (mk : Tm → Int) (field_value : Json) : Except Unit (Option Value) :=
  let value := sanitize_value field_value
  if pyFalsy value then .ok none
  else
    match value with
    | .str s =>
      match parseTs s with
      | some tm => .ok (some (.int (mk tm)))
      | none => .ok (some (.str s))
    | _ => .error ()

/-- `re.sub(r"^0+(?=\d)", "", s)`: drop the longest leading run of `'0'`
characters that is followed by a digit.  When the string is all zeros the
greedy run backtracks one character, so `"000"` becomes `"0"`. -/
def stripLeadZeros (s : String) : String :=
  let zs := s.data.takeWhile (fun c => c = '0')
  let rest := s.data.dropWhile (fun c => c = '0')
  match rest with
  | c :: _ =>
    if c.isDigit then String.mk rest
    else if zs.length ≥ 2 then String.mk ('0' :: rest) else s
  | [] => if zs.length ≥ 2 then "0" else s

/-- One digit-with-underscores run, as accepted inside Python `int`/`float`
literals: digits with single underscores strictly between digits.
Accumulates the value and the digit count; stops (without consuming)
at the first character that cannot extend the run. -/
def runU (acc n : Nat) : List Char → Nat × Nat × List Char
  | [] => (acc, n, [])
  | c :: rest =>
    if c.isDigit then runU (10 * acc + (c.toNat - 48)) (n + 1) rest
    else if c = '_' ∧ n ≠ 0 then
      match rest with
      | d :: rest2 =>
        if d.isDigit then runU (10 * acc + (d.toNat - 48)) (n + 1) rest2
        else (acc, n, c :: rest)
      | [] => (acc, n, c :: rest)
    else (acc, n, c :: rest)

/-- Python `int(s)` on an already-stripped string: optional sign, then a
non-empty digit run (underscores allowed between digits), nothing else. -/
def pyInt (s : String) : Option Int :=
  let (sgn, cs) : Int × List Char :=
    match s.data with
    | '-' :: r => (-1, r)
    | '+' :: r => (1, r)
    | cs => (1, cs)
  let (v, n, r) := runU 0 0 cs
  if n = 0 ∨ r ≠ [] then none else some (sgn * v)

/-- Python `float(s)` on an already-stripped string that contains a `'.'`
(the only way `process_number` reaches `float`): optional sign, optional
integer digits, a dot, optional fractional digits (at least one digit in
mantissa overall), then an optional exponent.  The value is modelled with
exact rational semantics of the literal (no IEEE rounding; no claim
compares two distinct literals' values). -/
def pyFloat (s : String) : Option ℚ :=
  let (sgn, cs) : Int × List Char :=
    match s.data with
    | '-' :: r => (-1, r)
    | '+' :: r => (1, r)
    | cs => (1, cs)
  let (ip, nI, r1) := runU 0 0 cs
  match r1 with
  | '.' :: r2 =>
    let (fp, nF, r3) := runU 0 0 r2
    if nI = 0 ∧ nF = 0 then none
    else
      -- the mantissa digits read as the integer  ip*10^nF + fp,
      -- scaled down by 10^nF (exact value of the decimal literal)
      let mantNum : Int := sgn * ((ip : Int) * (10 : Int) ^ nF + (fp : Int))
      match r3 with
      | [] => some (mkRat mantNum ((10 : Nat) ^ nF))
      | e :: r4 =>
        if e = 'e' ∨ e = 'E' then
          let (eneg, r5) : Bool × List Char :=
            match r4 with
            | '-' :: r => (true, r)
            | '+' :: r => (false, r)
            | r => (false, r)
          let (ev, nE, r6) := runU 0 0 r5
          if nE = 0 ∨ r6 ≠ [] then none
          else if eneg then some (mkRat mantNum ((10 : Nat) ^ nF * (10 : Nat) ^ ev))
          else some (mkRat (mantNum * (10 : Int) ^ ev) ((10 : Nat) ^ nF))
        else none
  | _ => none

/-- `process_number`: trim, strip leading zeros (with the special branch
for strings starting `"-0"`, which replaces the matched `-0+` prefix by a
bare `"-"`), then parse as float if a dot is present, else as int;
a parse failure omits.  A non-string payload raises `AttributeError`
at `value.startswith`. -/
def process_number (field_value : Json) : Except Unit (Option Value) :=
  match sanitize_value field_value with
  | .str s0 =>
    let value :=
      match s0.data with
      | '-' :: '0' :: _ =>
        String.mk ('-' :: (s0.data.drop 1).dropWhile (fun c => c = '0'))
      | _ => stripLeadZeros s0
    .ok (if value.data.contains '.' then (pyFloat value).map Value.float
         else (pyInt value).map Value.int)
  | _ => .error ()

/-- `process_boolean`: trim and lowercase; a six-literal lookup table,
anything else omits.  A non-string payload raises `AttributeError`
at `.lower()`. -/
def process_boolean (field_value : Json) : Except Unit (Option Bool) :=
  match sanitize_value field_value with
  | .str s =>
    let value := pyLower s
    if value = "1" ∨ value = "t" ∨ value = "true" then .ok (some true)
    else if value = "0" ∨ value = "f" ∨ value = "false" then .ok (some false)
    else .ok none
  | _ => .error ()

/-- Result of `process_null`: Python `None` (keep the field, with an
explicit null) or the string `"omit"` (drop the field). -/
inductive NullRes where
| null : NullRes
| omitted : NullRes
deriving DecidableEq

/-- `process_null`: trim and lowercase; a true-ish literal keeps the field
as an explicit null, a false-ish literal and anything else omit.  A
non-string payload raises `AttributeError` at `.lower()`. -/
def process_null (field_value : Json) : Except Unit NullRes :=
  match sanitize_value field_value with
  | .str s =>
    let value := pyLower s
    if value = "1" ∨ value = "t" ∨ value = "true" then .ok .null
    else if value = "0" ∨ value = "f" ∨ value = "false" then .ok .omitted
    else .ok .omitted
  | _ => .error ()

/-- The element loop of `process_list`: elements that are not single-entry
mappings are skipped; `S`/`N`/`BOOL` elements are decoded by their rules
and kept (in source order) when the rule yields a value; `NULL`, `L`, `M`
and unrecognized tags are skipped. -/
def processItems (mk : Tm → Int) : List Json → Except Unit (List Value)
  | [] => .ok []
  | item :: rest =>
    match item with
    | .obj [(key, val)] =>
      if key = "S" then
        match process_string mk val with
        | .error e => .error e
        | .ok none => processItems mk rest
        | .ok (some v) => (processItems mk rest).map (fun vs => v :: vs)
      else if key = "N" then
        match process_number val with
        | .error e => .error e
        | .ok none => processItems mk rest
        | .ok (some v) => (processItems mk rest).map (fun vs => v :: vs)
      else if key = "BOOL" then
        match process_boolean val with
        | .error e => .error e
        | .ok none => processItems mk rest
        | .ok (some b) => (processItems mk rest).map (fun vs => Value.bool b :: vs)
      else processItems mk rest
    | _ => processItems mk rest

/-- `process_list`: a non-sequence payload omits; otherwise run the
element loop and omit when the filtered result is empty. -/
def process_list (mk : Tm → Int) (field_value : Json) : Except Unit (Option (List Value)) :=
  match field_value with
  | .arr items =>
    match processItems mk items with
    | .error e => .error e
    | .ok vs => .ok (if vs.isEmpty then none else some vs)
  | _ => .ok none

/-- Python `dict` assignment `d[key] = v`: overwrite in place if the key
is present, else append. -/
def dictInsert : List (String × Value) → String → Value → List (String × Value)
  | [], k, v => [(k, v)]
  | p :: rest, k, v =>
    if p.1 = k then (k, v) :: rest else p :: dictInsert rest k v

/-- Python string `<`: strict lexicographic comparison of the code-point
sequences. -/
def lexLt : List Char → List Char → Bool
  | [], [] => false
  | [], _ :: _ => true
  | _ :: _, [] => false
  | a :: as, b :: bs =>
    if a < b then true
    else if b < a then false
    else lexLt as bs

/-- Insert an entry into a key-sorted list, before the first entry whose
key is not smaller. -/
def insertSortedKey (p : String × Value) : List (String × Value) → List (String × Value)
  | [] => [p]
  | q :: rest =>
    if lexLt q.1.data p.1.data then q :: insertSortedKey p rest
    else p :: q :: rest

/-- `dict(sorted(processed_map.items()))`: the entries rearranged into
ascending key order.  Python compares the `(key, value)` tuples, but keys
in a dict are distinct, so the comparison never reaches the values and
the result is the unique arrangement with strictly ascending keys; any
comparison sort produces it, insertion sort is used here. -/
def sortByKey : List (String × Value) → List (String × Value)
  | [] => []
  | p :: rest => insertSortedKey p (sortByKey rest)

/-!
The recursive knot: `transform_input` and `process_map` run the same
field loop (identical dispatch in the source, including the `NULL`
handling — `process_null` can only return `None` or `"omit"` for a
string payload, so the third branch in `process_map`'s `NULL` case is
dead), and the `M` rule recurses into `process_map`.
-/

mutual

/-- Decode one tagged item as the field loops do: a field value that is
not a single-entry mapping is skipped (`.ok none`), otherwise dispatch on
the tag; unrecognized tags are skipped. -/
def decodeField (mk : Tm → Int) (item : Json) : Except Unit (Option Value) :=
  match item with
  | .obj [(type_key, val)] =>
    if type_key = "S" then process_string mk val
    else if type_key = "N" then process_number val
    else if type_key = "BOOL" then
      match process_boolean val with
      | .error e => .error e
      | .ok r => .ok (r.map Value.bool)
    else if type_key = "NULL" then
      match process_null val with
      | .error e => .error e
      | .ok .null => .ok (some .null)
      | .ok .omitted => .ok none
    else if type_key = "L" then
      match process_list mk val with
      | .error e => .error e
      | .ok r => .ok (r.map Value.list)
    else if type_key = "M" then
      match process_map mk val with
      | .error e => .error e
      | .ok r => .ok (r.map Value.map)
    else .ok none
  | _ => .ok none

/-- The shared field loop of `transform_input` and `process_map`:
sanitize each raw key (skip when it trims to empty), decode the item,
and insert retained values into the accumulated dict. -/
def processFields (mk : Tm → Int) (fs : List (String × Json))
    (acc : List (String × Value)) : Except Unit (List (String × Value)) :=
  match fs with
  | [] => .ok acc
  | (raw_key, item) :: rest =>
    let key := sanitize_key raw_key
    if key = "" then processFields mk rest acc
    else
      match decodeField mk item with
      | .error e => .error e
      | .ok none => processFields mk rest acc
      | .ok (some v) => processFields mk rest (dictInsert acc key v)

/-- `process_map`: a non-mapping payload omits; otherwise run the field
loop, omit when the result is empty, and return it sorted by key. -/
def process_map (mk : Tm → Int) (field_value : Json) : Except Unit (Option (List (String × Value))) :=
  match field_value with
  | .obj fields =>
    match processFields mk fields [] with
    | .error e => .error e
    | .ok m => if m.isEmpty then .ok none else .ok (some (sortByKey m))
  | _ => .ok none

end

/-- `transform_input`: run the field loop on the top-level document and
wrap a non-empty result in a one-element list (the top-level dict is
**not** sorted). -/
def transform_input (mk : Tm → Int) (input_json : List (String × Json)) : Except Unit (List Value) :=
  match processFields mk input_json [] with
  | .error e => .error e
  | .ok processed => .ok (if processed.isEmpty then [] else [.map processed])

/-- Keys of an association list, in order. -/
def keysOf (l : List (String × Value)) : List String := l.map Prod.fst

/-- Adjacent keys strictly ascending in the Python string order
(the formal reading of "keys in ascending lexical order"). -/
def keysSortedB : List (String × Value) → Bool
  | [] => true
  | [_] => true
  | a :: b :: rest => lexLt a.1.data b.1.data && keysSortedB (b :: rest)

mutual

/-- Every mapping node inside a decoded value has strictly ascending keys. -/
def sortedDeepV : Value → Bool
  | .map kvs => keysSortedB kvs && sortedDeepF kvs
  | .list xs => sortedDeepL xs
  | _ => true

def sortedDeepF : List (String × Value) → Bool
  | [] => true
  | p :: rest => sortedDeepV p.2 && sortedDeepF rest

def sortedDeepL : List Value → Bool
  | [] => true
  | v :: rest => sortedDeepV v && sortedDeepL rest

end

mutual

/-- No mapping node inside a decoded value is empty (an empty decoded
mapping always collapses to absent at the level above). -/
def noEmptyDeepV : Value → Bool
  | .map kvs => !kvs.isEmpty && noEmptyDeepF kvs
  | .list xs => noEmptyDeepL xs
  | _ => true

def noEmptyDeepF : List (String × Value) → Bool
  | [] => true
  | p :: rest => noEmptyDeepV p.2 && noEmptyDeepF rest

def noEmptyDeepL : List Value → Bool
  | [] => true
  | v :: rest => noEmptyDeepV v && noEmptyDeepL rest

end

/-- A list element is well shaped when, if it is a single-entry mapping
tagged `S`, `N` or `BOOL`, its payload is a string (the shapes on which
the scalar rules cannot raise). -/
def wfElem (e : Json) : Bool :=
  match e with
  | .obj [(t, v)] =>
    if t = "S" ∨ t = "N" ∨ t = "BOOL" then v.isStr else true
  | _ => true

def wfElems : List Json → Bool
  | [] => true
  | e :: rest => wfElem e && wfElems rest

mutual

/-- A tagged item is well shaped when every payload under a scalar tag
(`S`, `N`, `BOOL`, `NULL`), at every nesting level, is a string. -/
def wfItem : Json → Bool
  | .obj [(t, v)] =>
    if t = "S" ∨ t = "N" ∨ t = "BOOL" ∨ t = "NULL" then v.isStr
    else if t = "L" then
      match v with
      | .arr items => wfElems items
      | _ => true
    else if t = "M" then
      match v with
      | .obj fs => wfFields fs
      | _ => true
    else true
  | _ => true

def wfFields : List (String × Json) → Bool
  | [] => true
  | p :: rest => wfItem p.2 && wfFields rest

end

/--
Modelled from the spec: "the exact pattern `YYYY-MM-DDTHH:MM:SSZ` (strict
RFC3339 subset, UTC designator literal `Z`, no fractional seconds, no
offset forms)" — exactly 20 characters, two-digit month/day/hour/minute/
second fields, uppercase `T` and `Z` literals, and calendar-valid field
values ("valid `YYYY-MM-DDTHH:MM:SSZ` strings"; year 0 is excluded, as no
`datetime` can represent it). -/
def specStrictRFC3339 (s : String) : Bool :=
  match s.data with
  | [y1, y2, y3, y4, '-', m1, m2, '-', d1, d2, 'T',
     h1, h2, ':', n1, n2, ':', p1, p2, 'Z'] =>
    [y1, y2, y3, y4, m1, m2, d1, d2, h1, h2, n1, n2, p1, p2].all Char.isDigit &&
    (let y := digitsVal [y1, y2, y3, y4]
     let mo := digitsVal [m1, m2]
     let d := digitsVal [d1, d2]
     let h := digitsVal [h1, h2]
     let mi := digitsVal [n1, n2]
     let sec := digitsVal [p1, p2]
     decide (1 ≤ y ∧ 1 ≤ mo ∧ mo ≤ 12 ∧ 1 ≤ d ∧ d ≤ daysInMonth y mo ∧
             h ≤ 23 ∧ mi ≤ 59 ∧ sec ≤ 59))
  | _ => false

/--
Modelled from the spec: the List rule's per-element decision — "each
element must itself be a well-formed tagged value with tag ∈ {S, N, BOOL}
only — elements tagged NULL, L, or M, or malformed elements, are silently
skipped"; a kept element's decoded value, `none` for a skipped one. -/
def specListElemDecode (mk : Tm → Int) (e : Json) : Option Value :=
  match e with
  | .obj [(t, v)] =>
    if t = "S" then
      match process_string mk v with
      | .ok r => r
      | .error _ => none
    else if t = "N" then
      match process_number v with
      | .ok r => r
      | .error _ => none
    else if t = "BOOL" then
      match process_boolean v with
      | .ok r => r.map Value.bool
      | .error _ => none
    else none
  | _ => none

/-- A concrete `time.mktime` environment (every local timestamp mapped to
epoch second 0), used to instantiate environment-generic statements. -/
def tzEnv0 : Tm → Int := fun _ => 0

/-- Scalar decoded values (what list elements can be). -/
def scalarV : Value → Bool
  | .list _ => false
  | .map _ => false
  | _ => true

/-- Key order as a relation: `a`'s key is at most `b`'s key exactly when
`b`'s key is not strictly smaller. -/
def keyLe (a b : String × Value) : Prop := lexLt b.1.data a.1.data = false

/-!  Order lemmas for the Python string comparison. -/

theorem lexLt_irrefl : ∀ as, lexLt as as = false := by
  intro as
  induction as with
  | nil => rfl
  | cons a as ih => simp [lexLt, ih]

theorem lexLt_asymm : ∀ as bs, lexLt as bs = true → lexLt bs as = false := by
  intro as
  induction as with
  | nil => intro bs h; cases bs <;> simp [lexLt] at h ⊢
  | cons a as ih =>
    intro bs h
    cases bs with
    | nil => simp [lexLt] at h
    | cons b bs =>
      simp only [lexLt] at h ⊢
      rcases lt_trichotomy a b with hab | hab | hab
      · simp [hab, not_lt_of_lt hab]
      · subst hab
        simp only [lt_irrefl, if_false] at h ⊢
        exact ih bs h
      · simp [hab, not_lt_of_lt hab] at h

theorem lexLt_trans : ∀ as bs cs, lexLt as bs = true → lexLt bs cs = true →
    lexLt as cs = true := by
  intro as
  induction as with
  | nil =>
    intro bs cs h1 h2
    cases bs with
    | nil => simp [lexLt] at h1
    | cons b bs => cases cs with
      | nil => simp [lexLt] at h2
      | cons c cs => simp [lexLt]
  | cons a as ih =>
    intro bs cs h1 h2
    cases bs with
    | nil => simp [lexLt] at h1
    | cons b bs =>
      cases cs with
      | nil => simp [lexLt] at h2
      | cons c cs =>
        simp only [lexLt] at h1 h2 ⊢
        rcases lt_trichotomy a b with hab | hab | hab
        · rcases lt_trichotomy b c with hbc | hbc | hbc
          · have hac : a < c := lt_trans hab hbc
            simp [hac]
          · subst hbc; simp [hab]
          · simp [hbc, not_lt_of_lt hbc] at h2
        · subst hab
          rcases lt_trichotomy a c with hac | hac | hac
          · simp [hac]
          · subst hac
            simp only [lt_irrefl, if_false] at h1 h2 ⊢
            exact ih bs cs h1 h2
          · simp [hac, not_lt_of_lt hac] at h2
        · simp [hab, not_lt_of_lt hab] at h1

theorem lexLt_conn : ∀ as bs, lexLt as bs = false → lexLt bs as = false →
    as = bs := by
  intro as
  induction as with
  | nil =>
    intro bs h1 _
    cases bs with
    | nil => rfl
    | cons b bs => simp [lexLt] at h1
  | cons a as ih =>
    intro bs h1 h2
    cases bs with
    | nil => simp [lexLt] at h2
    | cons b bs =>
      simp only [lexLt] at h1 h2
      rcases lt_trichotomy a b with hab | hab | hab
      · simp [hab] at h1
      · subst hab
        simp only [lt_irrefl, if_false] at h1 h2
        exact congrArg (a :: ·) (ih bs h1 h2)
      · simp [hab, not_lt_of_lt hab] at h2

/-!  Insertion-sort and dict lemmas. -/

theorem insertSortedKey_perm (p : String × Value) :
    ∀ l, (insertSortedKey p l).Perm (p :: l) := by
  intro l
  induction l with
  | nil => simp [insertSortedKey]
  | cons q rest ih =>
    simp only [insertSortedKey]
    split
    · exact ((ih.cons q).trans (List.Perm.swap p q rest)).symm.symm
    · exact List.Perm.refl _

theorem insertSortedKey_pairwise (p : String × Value) :
    ∀ l, l.Pairwise keyLe → (insertSortedKey p l).Pairwise keyLe := by
  intro l
  induction l with
  | nil => intro _; simp [insertSortedKey, List.pairwise_singleton]
  | cons q rest ih =>
    intro hp
    rw [List.pairwise_cons] at hp
    obtain ⟨hq, hrest⟩ := hp
    simp only [insertSortedKey]
    split
    · rename_i hlt
      rw [List.pairwise_cons]
      refine ⟨?_, ih hrest⟩
      intro a ha
      have hmem : a ∈ p :: rest := (insertSortedKey_perm p rest).mem_iff.mp ha
      rw [List.mem_cons] at hmem
      rcases hmem with rfl | hmem
      · exact lexLt_asymm _ _ hlt
      · exact hq a hmem
    · rename_i hnlt
      rw [Bool.not_eq_true] at hnlt
      rw [List.pairwise_cons]
      constructor
      · intro a ha
        rw [List.mem_cons] at ha
        rcases ha with rfl | ha
        · exact hnlt
        · have h1 : keyLe q a := hq a ha
          unfold keyLe at h1 ⊢
          by_cases h2 : lexLt a.1.data p.1.data = true
          · exfalso
            by_cases h4 : lexLt q.1.data a.1.data = true
            · have h5 := lexLt_trans _ _ _ h4 h2
              rw [h5] at hnlt
              exact absurd hnlt (by simp)
            · rw [Bool.not_eq_true] at h4
              have heq := lexLt_conn _ _ h1 h4
              rw [heq] at h2
              rw [h2] at hnlt
              exact absurd hnlt (by simp)
          · simpa using h2
      · rw [List.pairwise_cons]
        exact ⟨hq, hrest⟩

theorem sortByKey_perm : ∀ l, (sortByKey l).Perm l := by
  intro l
  induction l with
  | nil => simp [sortByKey]
  | cons p rest ih =>
    simp only [sortByKey]
    exact (insertSortedKey_perm p (sortByKey rest)).trans (ih.cons p)

theorem sortByKey_pairwise : ∀ l, (sortByKey l).Pairwise keyLe := by
  intro l
  induction l with
  | nil => simp [sortByKey]
  | cons p rest ih =>
    simp only [sortByKey]
    exact insertSortedKey_pairwise p _ ih

theorem string_eq_of_data_eq {s t : String} (h : s.data = t.data) : s = t :=
  congrArg String.mk h

theorem keysSortedB_of_pairwise :
    ∀ l, l.Pairwise keyLe → (keysOf l).Nodup → keysSortedB l = true := by
  intro l
  induction l with
  | nil => intro _ _; rfl
  | cons a rest ih =>
    intro hp hn
    rw [List.pairwise_cons] at hp
    obtain ⟨ha, hrest⟩ := hp
    have hn1 : (a.1 :: keysOf rest).Nodup := by simpa [keysOf] using hn
    have hnotin : a.1 ∉ keysOf rest := (List.nodup_cons.mp hn1).1
    have hn2 : (keysOf rest).Nodup := (List.nodup_cons.mp hn1).2
    cases rest with
    | nil => rfl
    | cons b rest2 =>
      have hab : keyLe a b := ha b (by simp)
      unfold keyLe at hab
      have hne : a.1 ≠ b.1 := by
        intro hc
        exact hnotin (by simp [keysOf, hc])
      have hlt : lexLt a.1.data b.1.data = true := by
        by_cases hcase : lexLt a.1.data b.1.data = true
        · exact hcase
        · rw [Bool.not_eq_true] at hcase
          exact absurd (string_eq_of_data_eq (lexLt_conn _ _ hcase hab)) hne
      simp only [keysSortedB, hlt, Bool.true_and]
      exact ih hrest hn2

/-!  Dict-insertion lemmas. -/

theorem keysOf_dictInsert_mem (k : String) (v : Value) :
    ∀ l, k ∈ keysOf l → keysOf (dictInsert l k v) = keysOf l := by
  intro l
  induction l with
  | nil => intro h; simp [keysOf] at h
  | cons p rest ih =>
    intro h
    simp only [dictInsert]
    by_cases hpk : p.1 = k
    · simp [keysOf, hpk]
    · have h2 : k ∈ keysOf rest := by
        simp only [keysOf, List.map_cons, List.mem_cons] at h
        rcases h with h | h
        · exact absurd h.symm hpk
        · exact h
      simp only [hpk, if_false, keysOf, List.map_cons]
      rw [show List.map Prod.fst (dictInsert rest k v) = keysOf (dictInsert rest k v) from rfl,
          ih h2]
      rfl

theorem keysOf_dictInsert_notMem (k : String) (v : Value) :
    ∀ l, k ∉ keysOf l → keysOf (dictInsert l k v) = keysOf l ++ [k] := by
  intro l
  induction l with
  | nil => intro _; simp [dictInsert, keysOf]
  | cons p rest ih =>
    intro h
    have hcons : keysOf (p :: rest) = p.1 :: keysOf rest := rfl
    have hpk : p.1 ≠ k := by
      intro hc
      exact h (by rw [hcons, hc]; exact List.mem_cons_self k _)
    have h2 : k ∉ keysOf rest := by
      intro hc
      exact h (by rw [hcons]; exact List.mem_cons_of_mem _ hc)
    simp only [dictInsert, hpk, if_false, keysOf, List.map_cons]
    rw [show List.map Prod.fst (dictInsert rest k v) = keysOf (dictInsert rest k v) from rfl,
        ih h2]
    rfl

theorem nodup_keys_dictInsert (k : String) (v : Value) :
    ∀ l, (keysOf l).Nodup → (keysOf (dictInsert l k v)).Nodup := by
  intro l hn
  by_cases hmem : k ∈ keysOf l
  · rw [keysOf_dictInsert_mem k v l hmem]; exact hn
  · rw [keysOf_dictInsert_notMem k v l hmem]
    rw [List.nodup_append]
    refine ⟨hn, List.nodup_singleton k, ?_⟩
    intro a ha hb
    rw [List.mem_singleton] at hb
    subst hb
    exact hmem ha

theorem mem_dictInsert (k : String) (v : Value) :
    ∀ l p, p ∈ dictInsert l k v → p = (k, v) ∨ p ∈ l := by
  intro l
  induction l with
  | nil =>
    intro p hp
    simp only [dictInsert, List.mem_singleton] at hp
    exact Or.inl hp
  | cons q rest ih =>
    intro p hp
    simp only [dictInsert] at hp
    by_cases hq : q.1 = k
    · simp only [hq, if_true, List.mem_cons] at hp
      rcases hp with rfl | hp
      · exact Or.inl rfl
      · exact Or.inr (List.mem_cons_of_mem q hp)
    · simp only [hq, if_false, List.mem_cons] at hp
      rcases hp with rfl | hp
      · exact Or.inr (List.mem_cons_self p rest)
      · rcases ih p hp with h | h
        · exact Or.inl h
        · exact Or.inr (List.mem_cons_of_mem q h)

/-!  Deep-predicate helper lemmas. -/

theorem sortedDeepF_iff : ∀ l, sortedDeepF l = true ↔ ∀ p ∈ l, sortedDeepV p.2 = true := by
  intro l
  induction l with
  | nil => simp [sortedDeepF]
  | cons p rest ih => simp [sortedDeepF, ih]

theorem noEmptyDeepF_iff : ∀ l, noEmptyDeepF l = true ↔ ∀ p ∈ l, noEmptyDeepV p.2 = true := by
  intro l
  induction l with
  | nil => simp [noEmptyDeepF]
  | cons p rest ih => simp [noEmptyDeepF, ih]

theorem sortedDeepL_iff : ∀ l, sortedDeepL l = true ↔ ∀ v ∈ l, sortedDeepV v = true := by
  intro l
  induction l with
  | nil => simp [sortedDeepL]
  | cons v rest ih => simp [sortedDeepL, ih]

theorem noEmptyDeepL_iff : ∀ l, noEmptyDeepL l = true ↔ ∀ v ∈ l, noEmptyDeepV v = true := by
  intro l
  induction l with
  | nil => simp [noEmptyDeepL]
  | cons v rest ih => simp [noEmptyDeepL, ih]

theorem scalarV_deep {v : Value} (h : scalarV v = true) :
    sortedDeepV v = true ∧ noEmptyDeepV v = true := by
  cases v <;> simp [scalarV] at h <;> simp [sortedDeepV, noEmptyDeepV]

/-!  Scalar processors: result shapes, and totality on string payloads. -/

theorem process_string_shape {mk : Tm → Int} {j : Json} {v : Value}
    (h : process_string mk j = .ok (some v)) : scalarV v = true := by
  simp only [process_string] at h
  split at h
  · simp at h
  · split at h
    · split at h
      · simp only [Except.ok.injEq, Option.some.injEq] at h
        subst h; rfl
      · simp only [Except.ok.injEq, Option.some.injEq] at h
        subst h; rfl
    · simp at h

theorem process_number_shape {j : Json} {v : Value}
    (h : process_number j = .ok (some v)) : scalarV v = true := by
  simp only [process_number] at h
  split at h
  · simp only [Except.ok.injEq] at h
    split at h
    · rw [Option.map_eq_some'] at h
      obtain ⟨q, hq1, hq2⟩ := h
      subst hq2; rfl
    · rw [Option.map_eq_some'] at h
      obtain ⟨n, hn1, hn2⟩ := h
      subst hn2; rfl
  · simp at h

theorem process_string_str_total (mk : Tm → Int) (s : String) :
    ∃ r, process_string mk (.str s) = .ok r := by
  simp only [process_string, sanitize_value]
  split
  · exact ⟨none, rfl⟩
  · split
    · exact ⟨_, rfl⟩
    · exact ⟨_, rfl⟩

theorem process_number_str_total (s : String) :
    ∃ r, process_number (.str s) = .ok r := by
  simp only [process_number, sanitize_value]
  exact ⟨_, rfl⟩

theorem process_boolean_str_total (s : String) :
    ∃ r, process_boolean (.str s) = .ok r := by
  simp only [process_boolean, sanitize_value]
  split
  · exact ⟨some true, rfl⟩
  · split
    · exact ⟨some false, rfl⟩
    · exact ⟨none, rfl⟩

theorem process_null_str_total (s : String) :
    ∃ r, process_null (.str s) = .ok r := by
  simp only [process_null, sanitize_value]
  split
  · exact ⟨.null, rfl⟩
  · split
    · exact ⟨.omitted, rfl⟩
    · exact ⟨.omitted, rfl⟩

/-!  List-rule lemmas. -/

theorem processItems_scalar (mk : Tm → Int) :
    ∀ items vs, processItems mk items = .ok vs → ∀ v ∈ vs, scalarV v = true := by
  intro items
  induction items with
  | nil =>
    intro vs h v hv
    simp only [processItems, Except.ok.injEq] at h
    subst h
    simp at hv
  | cons item rest ih =>
    intro vs h v hv
    simp only [processItems] at h
    split at h
    · split at h
      · -- S
        split at h
        · simp at h
        · exact ih vs h v hv
        · rename_i w heq
          cases hrest : processItems mk rest with
          | error e => rw [hrest] at h; simp [Except.map] at h
          | ok vs2 =>
            rw [hrest] at h
            simp only [Except.map, Except.ok.injEq] at h
            subst h
            rw [List.mem_cons] at hv
            rcases hv with rfl | hv
            · exact process_string_shape heq
            · exact ih vs2 hrest v hv
      · split at h
        · -- N
          split at h
          · simp at h
          · exact ih vs h v hv
          · rename_i w heq
            cases hrest : processItems mk rest with
            | error e => rw [hrest] at h; simp [Except.map] at h
            | ok vs2 =>
              rw [hrest] at h
              simp only [Except.map, Except.ok.injEq] at h
              subst h
              rw [List.mem_cons] at hv
              rcases hv with rfl | hv
              · exact process_number_shape heq
              · exact ih vs2 hrest v hv
        · split at h
          · -- BOOL
            split at h
            · simp at h
            · exact ih vs h v hv
            · rename_i b heq
              cases hrest : processItems mk rest with
              | error e => rw [hrest] at h; simp [Except.map] at h
              | ok vs2 =>
                rw [hrest] at h
                simp only [Except.map, Except.ok.injEq] at h
                subst h
                rw [List.mem_cons] at hv
                rcases hv with rfl | hv
                · rfl
                · exact ih vs2 hrest v hv
          · exact ih vs h v hv
    · exact ih vs h v hv

theorem processItems_wf (mk : Tm → Int) :
    ∀ items, wfElems items = true →
      processItems mk items = .ok (items.filterMap (specListElemDecode mk)) := by
  intro items
  induction items with
  | nil => intro _; rfl
  | cons item rest ih =>
    intro hwf
    simp only [wfElems, Bool.and_eq_true] at hwf
    obtain ⟨hitem, hrest⟩ := hwf
    have ihr := ih hrest
    simp only [processItems, List.filterMap_cons]
    cases item with
    | obj fs =>
      match fs with
      | [] => simpa [specListElemDecode] using ihr
      | (t, val) :: f2 :: fs2 => simpa [specListElemDecode] using ihr
      | [(t, val)] =>
        by_cases ht : t = "S"
        · subst ht
          simp only [wfElem, if_pos (Or.inl rfl)] at hitem
          obtain ⟨s, rfl⟩ : ∃ s, val = .str s := by
            cases val <;> simp [Json.isStr] at hitem ⊢
          obtain ⟨r, hr⟩ := process_string_str_total mk s
          cases r with
          | none => simp [hr, specListElemDecode, ihr]
          | some w => simp [hr, specListElemDecode, ihr, Except.map]
        · by_cases htn : t = "N"
          · subst htn
            simp only [wfElem, if_pos (Or.inr (Or.inl rfl))] at hitem
            obtain ⟨s, rfl⟩ : ∃ s, val = .str s := by
              cases val <;> simp [Json.isStr] at hitem ⊢
            obtain ⟨r, hr⟩ := process_number_str_total s
            cases r with
            | none => simp [hr, specListElemDecode, ihr]
            | some w => simp [hr, specListElemDecode, ihr, Except.map]
          · by_cases htb : t = "BOOL"
            · subst htb
              simp only [wfElem, if_pos (Or.inr (Or.inr rfl))] at hitem
              obtain ⟨s, rfl⟩ : ∃ s, val = .str s := by
                cases val <;> simp [Json.isStr] at hitem ⊢
              obtain ⟨r, hr⟩ := process_boolean_str_total s
              cases r with
              | none => simp [hr, specListElemDecode, ihr]
              | some b => simp [hr, specListElemDecode, ihr, Except.map]
            · simp [specListElemDecode, ht, htn, htb, ihr]
    | null => simpa [specListElemDecode] using ihr
    | bool b => simpa [specListElemDecode] using ihr
    | num q => simpa [specListElemDecode] using ihr
    | str s => simpa [specListElemDecode] using ihr
    | arr xs => simpa [specListElemDecode] using ihr

theorem process_list_scalars (mk : Tm → Int) {j : Json} {xs : List Value}
    (h : process_list mk j = .ok (some xs)) : ∀ v ∈ xs, scalarV v = true := by
  simp only [process_list] at h
  split at h
  · split at h
    · simp at h
    · rename_i vs heq
      split at h
      · simp at h
      · simp only [Except.ok.injEq, Option.some.injEq] at h
        subst h
        exact processItems_scalar mk _ vs heq
  · simp at h

/-!  Field-loop lemmas (shared by `transform_input` and `process_map`). -/

theorem processFields_inv (mk : Tm → Int) (Q : Value → Prop) :
    ∀ fs acc m, processFields mk fs acc = .ok m →
      (∀ p ∈ fs, ∀ v, decodeField mk p.2 = .ok (some v) → Q v) →
      (∀ p ∈ acc, Q p.2) → (keysOf acc).Nodup →
      (∀ p ∈ m, Q p.2) ∧ (keysOf m).Nodup := by
  intro fs
  induction fs with
  | nil =>
    intro acc m h _ hacc hnd
    simp only [processFields, Except.ok.injEq] at h
    subst h
    exact ⟨hacc, hnd⟩
  | cons f rest ih =>
    intro acc m h hfs hacc hnd
    obtain ⟨rk, item⟩ := f
    simp only [processFields] at h
    have hfs2 : ∀ p ∈ rest, ∀ v, decodeField mk p.2 = .ok (some v) → Q v :=
      fun p hp => hfs p (List.mem_cons_of_mem _ hp)
    split at h
    · exact ih acc m h hfs2 hacc hnd
    · split at h
      · simp at h
      · exact ih acc m h hfs2 hacc hnd
      · rename_i v heq
        refine ih _ m h hfs2 ?_ (nodup_keys_dictInsert _ v acc hnd)
        intro p hp
        rcases mem_dictInsert _ v acc p hp with rfl | hp2
        · exact hfs (rk, item) (List.mem_cons_self _ _) v heq
        · exact hacc p hp2

theorem processFields_noerror (mk : Tm → Int) :
    ∀ fs, (∀ p ∈ fs, ∃ r, decodeField mk p.2 = .ok r) →
      ∀ acc, ∃ m, processFields mk fs acc = .ok m := by
  intro fs
  induction fs with
  | nil => intro _ acc; exact ⟨acc, rfl⟩
  | cons f rest ih =>
    intro h acc
    obtain ⟨rk, item⟩ := f
    have h2 : ∀ p ∈ rest, ∃ r, decodeField mk p.2 = .ok r :=
      fun p hp => h p (List.mem_cons_of_mem _ hp)
    simp only [processFields]
    split
    · exact ih h2 acc
    · obtain ⟨r, hr⟩ := h (rk, item) (List.mem_cons_self _ _)
      rw [hr]
      cases r with
      | none => exact ih h2 acc
      | some v => exact ih h2 (dictInsert acc (sanitize_key rk) v)

/-- Sorting a field list with good values, distinct keys and at least one
entry yields a strictly key-sorted, good, non-empty field list. -/
theorem sortMap_good (m : List (String × Value))
    (hvals : ∀ p ∈ m, sortedDeepV p.2 = true ∧ noEmptyDeepV p.2 = true)
    (hnd : (keysOf m).Nodup) (hne : m ≠ []) :
    keysSortedB (sortByKey m) = true ∧ sortedDeepF (sortByKey m) = true ∧
      noEmptyDeepF (sortByKey m) = true ∧ sortByKey m ≠ [] := by
  have hperm := sortByKey_perm m
  have hmem : ∀ p, p ∈ sortByKey m → p ∈ m := fun p hp => hperm.mem_iff.mp hp
  have hndS : (keysOf (sortByKey m)).Nodup := by
    have : (keysOf (sortByKey m)).Perm (keysOf m) := hperm.map Prod.fst
    exact this.nodup_iff.mpr hnd
  refine ⟨keysSortedB_of_pairwise _ (sortByKey_pairwise m) hndS, ?_, ?_, ?_⟩
  · rw [sortedDeepF_iff]
    exact fun p hp => (hvals p (hmem p hp)).1
  · rw [noEmptyDeepF_iff]
    exact fun p hp => (hvals p (hmem p hp)).2
  · intro hc
    exact hne (List.eq_nil_of_length_eq_zero (by rw [← hperm.length_eq, hc]; rfl))

/-- Every value retained by the field dispatch has all its nested
mappings non-empty and strictly key-sorted (strong induction on the
size of the tagged item). -/
theorem decodeField_good_aux :
    ∀ (n : Nat) (item : Json), sizeOf item ≤ n → ∀ (mk : Tm → Int) (v : Value),
      decodeField mk item = .ok (some v) →
      sortedDeepV v = true ∧ noEmptyDeepV v = true := by
  intro n
  induction n using Nat.strong_induction_on with
  | _ n IH =>
  intro item hsz mk v hdec
  cases item with
  | null => simp [decodeField] at hdec
  | bool b => simp [decodeField] at hdec
  | num q => simp [decodeField] at hdec
  | str s => simp [decodeField] at hdec
  | arr xs => simp [decodeField] at hdec
  | obj fs =>
    cases fs with
    | nil => simp [decodeField] at hdec
    | cons f1 rest =>
      cases rest with
      | cons f2 rest2 => simp [decodeField] at hdec
      | nil =>
        obtain ⟨t, val⟩ := f1
        simp only [decodeField] at hdec
        split at hdec
        · exact scalarV_deep (process_string_shape hdec)
        · split at hdec
          · exact scalarV_deep (process_number_shape hdec)
          · split at hdec
            · -- BOOL
              split at hdec
              · simp at hdec
              · simp only [Except.ok.injEq] at hdec
                rw [Option.map_eq_some'] at hdec
                obtain ⟨b, hb1, hb2⟩ := hdec
                subst hb2
                exact scalarV_deep rfl
            · split at hdec
              · -- NULL
                split at hdec
                · simp at hdec
                · simp only [Except.ok.injEq, Option.some.injEq] at hdec
                  subst hdec
                  exact scalarV_deep rfl
                · simp at hdec
              · split at hdec
                · -- L
                  split at hdec
                  · simp at hdec
                  · rename_i r heq
                    simp only [Except.ok.injEq] at hdec
                    rw [Option.map_eq_some'] at hdec
                    obtain ⟨xs, hx1, hx2⟩ := hdec
                    subst hx2
                    subst hx1
                    have hsc := process_list_scalars mk heq
                    constructor
                    · simp only [sortedDeepV]
                      rw [sortedDeepL_iff]
                      exact fun w hw => (scalarV_deep (hsc w hw)).1
                    · simp only [noEmptyDeepV]
                      rw [noEmptyDeepL_iff]
                      exact fun w hw => (scalarV_deep (hsc w hw)).2
                · split at hdec
                  · -- M
                    split at hdec
                    · simp at hdec
                    · rename_i r heq
                      simp only [Except.ok.injEq] at hdec
                      rw [Option.map_eq_some'] at hdec
                      obtain ⟨kvs, hk1, hk2⟩ := hdec
                      subst hk2
                      subst hk1
                      unfold process_map at heq
                      split at heq
                      · rename_i fields
                        split at heq
                        · simp at heq
                        · rename_i m1 heqf
                          split at heq
                          · simp at heq
                          · rename_i hnemp
                            simp only [Except.ok.injEq, Option.some.injEq] at heq
                            subst heq
                            have hQ : ∀ p ∈ fields, ∀ w,
                                decodeField mk p.2 = .ok (some w) →
                                sortedDeepV w = true ∧ noEmptyDeepV w = true := by
                              intro p hp w hw
                              obtain ⟨p1, p2⟩ := p
                              have hm := List.sizeOf_lt_of_mem hp
                              simp only [Prod.mk.sizeOf_spec] at hm
                              have hlt : sizeOf p2 < n := by
                                simp only [Json.obj.sizeOf_spec, List.cons.sizeOf_spec,
                                  List.nil.sizeOf_spec, Prod.mk.sizeOf_spec] at hsz
                                omega
                              exact IH (sizeOf p2) hlt p2 le_rfl mk w hw
                            obtain ⟨hvals, hnd⟩ :=
                              processFields_inv mk
                                (fun w => sortedDeepV w = true ∧ noEmptyDeepV w = true)
                                fields [] m1 heqf hQ (by simp) (by simp [keysOf])
                            have hne : m1 ≠ [] := by
                              intro hc
                              subst hc
                              simp at hnemp
                            obtain ⟨hs1, hs2, hs3, hs4⟩ := sortMap_good m1 hvals hnd hne
                            constructor
                            · simp only [sortedDeepV, hs1, hs2, Bool.and_self]
                            · simp only [noEmptyDeepV, hs3, Bool.and_true]
                              simpa using hs4
                      · simp at heq
                  · simp at hdec

theorem wfFields_mem : ∀ l, wfFields l = true → ∀ p ∈ l, wfItem p.2 = true := by
  intro l
  induction l with
  | nil => intro _ p hp; simp at hp
  | cons q rest ih =>
    intro h p hp
    unfold wfFields at h
    rw [Bool.and_eq_true] at h
    rw [List.mem_cons] at hp
    rcases hp with rfl | hp
    · exact h.1
    · exact ih h.2 p hp

/-- On well-shaped input (string payloads under every scalar tag) the
dispatch never raises, at any nesting level (strong induction on size). -/
theorem decodeField_ok_aux :
    ∀ (n : Nat) (item : Json), sizeOf item ≤ n → wfItem item = true →
      ∀ (mk : Tm → Int), ∃ r, decodeField mk item = .ok r := by
  intro n
  induction n using Nat.strong_induction_on with
  | _ n IH =>
  intro item hsz hwf mk
  cases item with
  | null => exact ⟨none, rfl⟩
  | bool b => exact ⟨none, rfl⟩
  | num q => exact ⟨none, rfl⟩
  | str s => exact ⟨none, rfl⟩
  | arr xs => exact ⟨none, rfl⟩
  | obj fs =>
    cases fs with
    | nil => exact ⟨none, rfl⟩
    | cons f1 rest =>
      cases rest with
      | cons f2 rest2 => exact ⟨none, rfl⟩
      | nil =>
        obtain ⟨t, val⟩ := f1
        unfold wfItem at hwf
        simp only [decodeField]
        by_cases ht : t = "S"
        · subst ht
          rw [if_pos (Or.inl rfl)] at hwf
          obtain ⟨s, rfl⟩ : ∃ s, val = .str s := by
            cases val <;> simp [Json.isStr] at hwf ⊢
          rw [if_pos rfl]
          exact process_string_str_total mk s
        · by_cases htn : t = "N"
          · subst htn
            rw [if_pos (Or.inr (Or.inl rfl))] at hwf
            obtain ⟨s, rfl⟩ : ∃ s, val = .str s := by
              cases val <;> simp [Json.isStr] at hwf ⊢
            rw [if_neg (by simp), if_pos rfl]
            exact process_number_str_total s
          · by_cases htb : t = "BOOL"
            · subst htb
              rw [if_pos (Or.inr (Or.inr (Or.inl rfl)))] at hwf
              obtain ⟨s, rfl⟩ : ∃ s, val = .str s := by
                cases val <;> simp [Json.isStr] at hwf ⊢
              rw [if_neg (by simp), if_neg (by simp), if_pos rfl]
              obtain ⟨r, hr⟩ := process_boolean_str_total s
              rw [hr]
              exact ⟨r.map Value.bool, rfl⟩
            · by_cases htnl : t = "NULL"
              · subst htnl
                rw [if_pos (Or.inr (Or.inr (Or.inr rfl)))] at hwf
                obtain ⟨s, rfl⟩ : ∃ s, val = .str s := by
                  cases val <;> simp [Json.isStr] at hwf ⊢
                rw [if_neg (by simp), if_neg (by simp), if_neg (by simp), if_pos rfl]
                obtain ⟨r, hr⟩ := process_null_str_total s
                rw [hr]
                cases r with
                | null => exact ⟨some .null, rfl⟩
                | omitted => exact ⟨none, rfl⟩
              · by_cases htl : t = "L"
                · subst htl
                  rw [if_neg (by simp), if_pos rfl] at hwf
                  rw [if_neg (by simp), if_neg (by simp), if_neg (by simp),
                      if_neg (by simp), if_pos rfl]
                  have hlist : ∃ r, process_list mk val = .ok r := by
                    cases val with
                    | arr items =>
                      simp only [process_list]
                      rw [processItems_wf mk items hwf]
                      exact ⟨_, rfl⟩
                    | null => exact ⟨none, rfl⟩
                    | bool b => exact ⟨none, rfl⟩
                    | num q => exact ⟨none, rfl⟩
                    | str s => exact ⟨none, rfl⟩
                    | obj fs3 => exact ⟨none, rfl⟩
                  obtain ⟨r, hr⟩ := hlist
                  rw [hr]
                  exact ⟨r.map Value.list, rfl⟩
                · by_cases htm : t = "M"
                  · subst htm
                    rw [if_neg (by simp), if_neg (by simp), if_pos rfl] at hwf
                    rw [if_neg (by simp), if_neg (by simp), if_neg (by simp),
                        if_neg (by simp), if_neg (by simp), if_pos rfl]
                    have hmap : ∃ r, process_map mk val = .ok r := by
                      cases val with
                      | obj fields =>
                        have helem : ∀ p ∈ fields, ∃ r, decodeField mk p.2 = .ok r := by
                          intro p hp
                          obtain ⟨p1, p2⟩ := p
                          have hm := List.sizeOf_lt_of_mem hp
                          simp only [Prod.mk.sizeOf_spec] at hm
                          have hlt : sizeOf p2 < n := by
                            simp only [Json.obj.sizeOf_spec, List.cons.sizeOf_spec,
                              List.nil.sizeOf_spec, Prod.mk.sizeOf_spec] at hsz
                            omega
                          exact IH (sizeOf p2) hlt p2 le_rfl
                            (wfFields_mem fields hwf (p1, p2) hp) mk
                        obtain ⟨m, hm⟩ := processFields_noerror mk fields helem []
                        unfold process_map
                        rw [hm]
                        by_cases hemp : m.isEmpty
                        · exact ⟨none, by simp [hemp]⟩
                        · exact ⟨some (sortByKey m), by simp [hemp]⟩
                      | null => exact ⟨none, rfl⟩
                      | bool b => exact ⟨none, rfl⟩
                      | num q => exact ⟨none, rfl⟩
                      | str s => exact ⟨none, rfl⟩
                      | arr xs => exact ⟨none, rfl⟩
                    obtain ⟨r, hr⟩ := hmap
                    rw [hr]
                    exact ⟨r.map Value.map, rfl⟩
                  · rw [if_neg ht, if_neg htn, if_neg htb, if_neg htnl,
                        if_neg htl, if_neg htm]
                    exact ⟨none, rfl⟩

theorem decodeField_good {mk : Tm → Int} {item : Json} {v : Value}
    (h : decodeField mk item = .ok (some v)) :
    sortedDeepV v = true ∧ noEmptyDeepV v = true :=
  decodeField_good_aux (sizeOf item) item le_rfl mk v h

theorem decodeField_ok {mk : Tm → Int} {item : Json} (hwf : wfItem item = true) :
    ∃ r, decodeField mk item = .ok r :=
  decodeField_ok_aux (sizeOf item) item le_rfl hwf mk

/-- Every string matching the spec's strict `YYYY-MM-DDTHH:MM:SSZ` pattern
is accepted by the source's `strptime`-based check. -/
theorem strict_implies_accept (s : String) (h : specStrictRFC3339 s = true) :
    is_rfc3339 s = true := by
  unfold specStrictRFC3339 at h
  split at h
  · rename_i y1 y2 y3 y4 m1 m2 d1 d2 h1 h2 n1 n2 p1 p2 heq
    rw [Bool.and_eq_true] at h
    obtain ⟨hdig, hvals⟩ := h
    simp only [List.all_cons, List.all_nil, Bool.and_eq_true, Bool.and_true] at hdig
    obtain ⟨hy1, hy2, hy3, hy4, hm1, hm2, hd1, hd2, hh1, hh2, hn1, hn2, hp1, hp2⟩ := hdig
    rw [decide_eq_true_eq] at hvals
    unfold is_rfc3339 parseTs
    rw [heq]
    simp [takeDigits, hy1, hy2, hy3, hy4, hm1, hm2, hd1, hd2, hh1, hh2, hn1,
      hn2, hp1, hp2,
      (show ('-' : Char).isDigit = false from rfl),
      (show ('T' : Char).isDigit = false from rfl),
      (show (':' : Char).isDigit = false from rfl),
      (show ('Z' : Char).isDigit = false from rfl)]
    exact hvals
  · exact absurd h (by simp)

/-- Claim C1 (amended): every decoded mapping produced by the Map rule has
its keys in ascending lexical order regardless of input key order, and so
does every mapping nested anywhere inside the output values; the
top-level mapping returned by the core, however, is in input insertion
order, not sorted. -/
theorem c1_map_rule_sorted (mk : Tm → Int) :
    (∀ j kvs, process_map mk j = .ok (some kvs) →
      keysSortedB kvs = true ∧ sortedDeepF kvs = true) ∧
    (∀ input kvs, transform_input mk input = .ok [.map kvs] →
      sortedDeepF kvs = true) := by
  constructor
  · intro j kvs h
    have hd : decodeField mk (.obj [("M", j)]) = .ok (some (.map kvs)) := by
      simp [decodeField, h]
    have hg := (decodeField_good hd).1
    simp only [sortedDeepV, Bool.and_eq_true] at hg
    exact hg
  · intro input kvs h
    unfold transform_input at h
    split at h
    · simp at h
    · rename_i m hm
      split at h
      · simp at h
      · simp only [Except.ok.injEq, List.cons.injEq, and_true, Value.map.injEq] at h
        subst h
        have hinv := processFields_inv mk (fun w => sortedDeepV w = true) input [] m hm
          (fun p hp w hw => (decodeField_good hw).1) (by simp) (by simp [keysOf])
        rw [sortedDeepF_iff]
        exact hinv.1

/-- Claim C1 witness: a Map-rule payload given with keys "b", "a" comes
out sorted as "a", "b". -/
theorem c1_map_rule_sorted_witness :
    keysSortedB [("a", Value.str "y"), ("b", Value.str "x")] = true ∧
    sortedDeepF [("a", Value.str "y"), ("b", Value.str "x")] = true :=
  (c1_map_rule_sorted tzEnv0).1
    (.obj [("b", .obj [("S", .str "x")]), ("a", .obj [("S", .str "y")])])
    [("a", Value.str "y"), ("b", Value.str "x")] rfl

/-- Claim C1 counterexample: the top-level mapping returned by the core is
not key-sorted — with input keys "b" then "a" the output keys stay in
input order. -/
theorem c1_toplevel_unsorted_counterexample :
    transform_input tzEnv0
        [("b", .obj [("S", .str "x")]), ("a", .obj [("S", .str "y")])] =
      .ok [.map [("b", Value.str "x"), ("a", Value.str "y")]] ∧
    keysSortedB [("b", Value.str "x"), ("a", Value.str "y")] = false :=
  ⟨rfl, rfl⟩

/-- Claim C2 (amended): wrong payload shapes for the composite tags and
malformed wrappers degrade to omission, but a truthy non-string payload
under tag S, or any non-string payload under N, BOOL or NULL, raises a
type error instead of being omitted; whenever every scalar-tag payload in
the document is a string, the decoder never raises. -/
theorem c2_no_raise_on_wf (mk : Tm → Int) :
    ∀ input, (∀ p ∈ input, wfItem p.2 = true) →
      ∃ r, transform_input mk input = .ok r := by
  intro input h
  obtain ⟨m, hm⟩ :=
    processFields_noerror mk input (fun p hp => decodeField_ok (h p hp)) []
  exact ⟨_, by unfold transform_input; rw [hm]⟩

/-- Claim C2 witness: a well-shaped document decodes without an error. -/
theorem c2_no_raise_on_wf_witness :
    ∃ r, transform_input tzEnv0
      [("a", .obj [("N", .str "5")]), ("m", .obj [("M", .obj [("x", .obj [("BOOL", .str "t")])])])]
      = .ok r :=
  c2_no_raise_on_wf tzEnv0 _ (by
    intro p hp
    rw [List.mem_cons, List.mem_singleton] at hp
    rcases hp with rfl | rfl
    · rfl
    · rfl)

/-- Claim C2 counterexample: a numeric (non-string) payload under tag N
makes the decoder raise (`AttributeError` at `value.startswith`) instead
of omitting the field. -/
theorem c2_raises_counterexample :
    transform_input tzEnv0 [("a", .obj [("N", .num 5)])] = .error () := rfl

/-- Claim C3 (amended): every string matching the strict
`YYYY-MM-DDTHH:MM:SSZ` pattern is accepted by the String rule's check,
but the accepted set is `strptime`'s, which is broader: month, day, hour,
minute and second may also be written with one digit, and the `T`/`Z`
literals match case-insensitively.  An accepted trimmed payload yields
the `time.mktime` epoch integer of the parsed fields; every other
non-empty trimmed payload is returned unchanged. -/
theorem c3_string_rule (mk : Tm → Int) (s : String) :
    (specStrictRFC3339 s = true → is_rfc3339 s = true) ∧
    (pyStrip s ≠ "" →
      (∀ tm, parseTs (pyStrip s) = some tm →
        process_string mk (.str s) = .ok (some (.int (mk tm)))) ∧
      (parseTs (pyStrip s) = none →
        process_string mk (.str s) = .ok (some (.str (pyStrip s))))) := by
  refine ⟨strict_implies_accept s, ?_⟩
  intro hne
  have hfalse : pyFalsy (.str (pyStrip s)) = false := by
    cases hdata : (pyStrip s).data with
    | nil => exact absurd (string_eq_of_data_eq (by rw [hdata]) : pyStrip s = "") hne
    | cons c rest => simp [pyFalsy, hdata]
  constructor
  · intro tm hparse
    simp [process_string, sanitize_value, hfalse, hparse]
  · intro hparse
    simp [process_string, sanitize_value, hfalse, hparse]

/-- Claim C3 witness: the strictly formatted timestamp
"2021-01-01T00:00:00Z" is accepted and converted to the environment's
epoch integer. -/
theorem c3_string_rule_witness :
    is_rfc3339 "2021-01-01T00:00:00Z" = true ∧
    process_string tzEnv0 (.str "2021-01-01T00:00:00Z") =
      .ok (some (.int 0)) := by
  have h := c3_string_rule tzEnv0 "2021-01-01T00:00:00Z"
  exact ⟨h.1 rfl, (h.2 (by decide)).1 ⟨2021, 1, 1, 0, 0, 0⟩ rfl⟩

/-- Claim C3 counterexample: "2021-1-1T0:0:0Z" does not match the exact
`YYYY-MM-DDTHH:MM:SSZ` pattern (one-digit fields), is non-empty and
already trimmed, yet the String rule converts it to an epoch integer
instead of returning the trimmed string unchanged. -/
theorem c3_lenient_counterexample :
    specStrictRFC3339 "2021-1-1T0:0:0Z" = false ∧
    pyStrip "2021-1-1T0:0:0Z" = "2021-1-1T0:0:0Z" ∧
    process_string tzEnv0 (.str "2021-1-1T0:0:0Z") = .ok (some (.int 0)) ∧
    process_string tzEnv0 (.str "2021-1-1T0:0:0Z") ≠
      .ok (some (.str "2021-1-1T0:0:0Z")) := by
  refine ⟨rfl, rfl, rfl, ?_⟩
  intro hc
  have h3 : process_string tzEnv0 (.str "2021-1-1T0:0:0Z") =
      .ok (some (.int 0)) := rfl
  rw [h3] at hc
  simp at hc

/-- Claim C4 (code bug): the Number rule omits "-0" instead of returning
zero — the leading-zero normalization rewrites "-0" to the bare "-",
whose integer parse fails, so the field is dropped. -/
theorem c4_neg_zero_omitted :
    process_number (.str "-0") = .ok none ∧ pyInt "-" = none :=
  ⟨rfl, rfl⟩

/-- Claim C5 (confirmed): for a string payload under tag NULL, a trimmed,
lowercased payload in {"1","t","true"} keeps the field with an explicit
null; one in {"0","f","false"}, and any other value, drops the field
entirely — at the top level and inside the Map rule alike. -/
theorem c5_null_rule (mk : Tm → Int) (s : String) :
    (process_null (.str s) = .ok (
      if pyLower (pyStrip s) = "1" ∨ pyLower (pyStrip s) = "t" ∨
         pyLower (pyStrip s) = "true"
      then NullRes.null else NullRes.omitted)) ∧
    (process_map mk (.obj [("k", .obj [("NULL", .str s)])]) = .ok (
      if pyLower (pyStrip s) = "1" ∨ pyLower (pyStrip s) = "t" ∨
         pyLower (pyStrip s) = "true"
      then some [("k", Value.null)] else none)) ∧
    (transform_input mk [("k", .obj [("NULL", .str s)])] = .ok (
      if pyLower (pyStrip s) = "1" ∨ pyLower (pyStrip s) = "t" ∨
         pyLower (pyStrip s) = "true"
      then [Value.map [("k", Value.null)]] else [])) := by
  by_cases hc : pyLower (pyStrip s) = "1" ∨ pyLower (pyStrip s) = "t" ∨
      pyLower (pyStrip s) = "true"
  · have h1 : process_null (.str s) = .ok NullRes.null := by
      simp [process_null, sanitize_value, hc]
    refine ⟨by rw [h1, if_pos hc], ?_, ?_⟩
    · rw [if_pos hc]
      unfold process_map
      simp [processFields, decodeField, h1, sanitize_key, pyStrip, pyStripChars,
        dictInsert, sortByKey, insertSortedKey]
    · rw [if_pos hc]
      unfold transform_input
      simp [processFields, decodeField, h1, sanitize_key, pyStrip, pyStripChars,
        dictInsert]
  · have h1 : process_null (.str s) = .ok NullRes.omitted := by
      simp only [process_null, sanitize_value]
      rw [if_neg hc]
      split <;> rfl
    refine ⟨by rw [h1, if_neg hc], ?_, ?_⟩
    · rw [if_neg hc]
      unfold process_map
      simp [processFields, decodeField, h1, sanitize_key, pyStrip, pyStripChars]
    · rw [if_neg hc]
      unfold transform_input
      simp [processFields, decodeField, h1, sanitize_key, pyStrip, pyStripChars]

/-- Claim C6 (amended): under tag L, elements tagged NULL, L or M,
elements with unrecognized tags, and malformed wrappers (not a
single-entry mapping) are silently skipped; surviving S/N/BOOL elements
that decode to a value are kept in source order; an empty filtered result,
or a non-sequence payload, omits the whole field — provided every S/N/BOOL
element's payload is a string (a non-string payload there raises). -/
theorem c6_list_rule (mk : Tm → Int) :
    (∀ items, wfElems items = true →
      process_list mk (.arr items) = .ok (
        if (items.filterMap (specListElemDecode mk)).isEmpty then none
        else some (items.filterMap (specListElemDecode mk)))) ∧
    (∀ j, j.isArr = false → process_list mk j = .ok none) := by
  constructor
  · intro items hwf
    simp only [process_list]
    rw [processItems_wf mk items hwf]
  · intro j hj
    cases j with
    | arr xs => simp [Json.isArr] at hj
    | null => rfl
    | bool b => rfl
    | num q => rfl
    | str s => rfl
    | obj fs => rfl

/-- Claim C6 witness: a NULL-tagged element and a malformed element are
skipped, the surviving S and N elements are kept in order. -/
theorem c6_list_rule_witness :
    process_list tzEnv0 (.arr [.obj [("NULL", .str "1")], .obj [("S", .str "a")],
        .obj [("N", .str "2")], .str "junk"]) =
      .ok (if (([.obj [("NULL", .str "1")], .obj [("S", .str "a")],
        .obj [("N", .str "2")], .str "junk"] : List Json).filterMap
          (specListElemDecode tzEnv0)).isEmpty then none
        else some (([.obj [("NULL", .str "1")], .obj [("S", .str "a")],
        .obj [("N", .str "2")], .str "junk"] : List Json).filterMap
          (specListElemDecode tzEnv0))) :=
  (c6_list_rule tzEnv0).1 _ rfl

/-- Claim C6 counterexample: a BOOL-tagged element with a numeric payload
makes the List rule raise instead of skipping the element or omitting the
field. -/
theorem c6_raises_counterexample :
    process_list tzEnv0 (.arr [.obj [("BOOL", .num 1)]]) = .error () := rfl

/-- Claim C7 (confirmed): the output is a sequence of at most one decoded
mapping — empty when no field survives (in particular for the empty
document), else a one-element sequence around a non-empty mapping none of
whose nested mappings is empty; a nested mapping whose fields all vanish
collapses to absent at the level above. -/
theorem c7_output_shape (mk : Tm → Int) :
    transform_input mk [] = .ok [] ∧
    (∀ fields, processFields mk fields [] = .ok [] →
      process_map mk (.obj fields) = .ok none) ∧
    (∀ input r, transform_input mk input = .ok r →
      r = [] ∨ ∃ kvs, kvs ≠ [] ∧ r = [Value.map kvs] ∧ noEmptyDeepF kvs = true) := by
  refine ⟨rfl, ?_, ?_⟩
  · intro fields h
    unfold process_map
    rw [h]
    rfl
  · intro input r h
    unfold transform_input at h
    split at h
    · simp at h
    · rename_i m hm
      split at h
      · rename_i hemp
        simp only [Except.ok.injEq] at h
        exact Or.inl h.symm
      · rename_i hemp
        simp only [Except.ok.injEq] at h
        refine Or.inr ⟨m, ?_, h.symm, ?_⟩
        · intro hc
          subst hc
          simp at hemp
        · have hinv := processFields_inv mk (fun w => noEmptyDeepV w = true) input [] m hm
            (fun p hp w hw => (decodeField_good hw).2) (by simp) (by simp [keysOf])
          rw [noEmptyDeepF_iff]
          exact hinv.1

/-- Claim C7 witness: a surviving field yields a one-element sequence. -/
theorem c7_output_shape_witness :
    ([Value.map [("a", Value.str "x")]] : List Value) = [] ∨
    ∃ kvs, kvs ≠ [] ∧ ([Value.map [("a", Value.str "x")]] : List Value) = [Value.map kvs] ∧
      noEmptyDeepF kvs = true :=
  (c7_output_shape tzEnv0).2.2 [("a", .obj [("S", .str "x")])] _ rfl

/-- Claim C8 (confirmed): the decoder is a pure function of the input and
the timezone environment — decoding the same tagged input twice in the
same environment yields identical output. -/
theorem c8_deterministic (mk : Tm → Int) (input : List (String × Json))
    (r1 r2 : Except Unit (List Value))
    (h1 : transform_input mk input = r1) (h2 : transform_input mk input = r2) :
    r1 = r2 :=
  h1.symm.trans h2

/-- Claim C8 witness: two runs on a concrete input agree. -/
theorem c8_deterministic_witness :
    (Except.ok [Value.map [("a", Value.str "x")]] : Except Unit (List Value)) =
      .ok [Value.map [("a", Value.str "x")]] :=
  c8_deterministic tzEnv0 [("a", .obj [("S", .str "x")])] _ _ rfl rfl

/-- Claim C9 (confirmed): falsy decoded values are not conflated with
omission — a field or list element whose rule yields boolean false,
integer 0 or float 0.0 is retained, since omission is signalled only by
the absence sentinel. -/
theorem c9_falsy_retained (mk : Tm → Int) (k : String) (j : Json)
    (hk : sanitize_key k ≠ "") :
    (process_boolean j = .ok (some false) →
      transform_input mk [(k, .obj [("BOOL", j)])] =
        .ok [.map [(sanitize_key k, .bool false)]] ∧
      process_list mk (.arr [.obj [("BOOL", j)]]) = .ok (some [.bool false])) ∧
    (process_number j = .ok (some (.int 0)) →
      transform_input mk [(k, .obj [("N", j)])] =
        .ok [.map [(sanitize_key k, .int 0)]] ∧
      process_list mk (.arr [.obj [("N", j)]]) = .ok (some [.int 0])) ∧
    (process_number j = .ok (some (.float 0)) →
      transform_input mk [(k, .obj [("N", j)])] =
        .ok [.map [(sanitize_key k, .float 0)]] ∧
      process_list mk (.arr [.obj [("N", j)]]) = .ok (some [.float 0])) := by
  refine ⟨?_, ?_, ?_⟩
  · intro h
    constructor
    · unfold transform_input
      simp [processFields, decodeField, h, hk, dictInsert]
    · simp [process_list, processItems, h, Except.map]
  · intro h
    constructor
    · unfold transform_input
      simp [processFields, decodeField, h, hk, dictInsert]
    · simp [process_list, processItems, h, Except.map]
  · intro h
    constructor
    · unfold transform_input
      simp [processFields, decodeField, h, hk, dictInsert]
    · simp [process_list, processItems, h, Except.map]

/-- Claim C9 witness: payloads "f", "0" and "0.0" decode to false, 0 and
0.0 and all three are retained. -/
theorem c9_falsy_retained_witness :
    transform_input tzEnv0 [("k", .obj [("BOOL", .str "f")])] =
      .ok [.map [("k", Value.bool false)]] ∧
    transform_input tzEnv0 [("k", .obj [("N", .str "0")])] =
      .ok [.map [("k", Value.int 0)]] ∧
    transform_input tzEnv0 [("k", .obj [("N", .str "0.0")])] =
      .ok [.map [("k", Value.float 0)]] :=
  ⟨((c9_falsy_retained tzEnv0 "k" (.str "f") (by decide)).1 rfl).1,
   ((c9_falsy_retained tzEnv0 "k" (.str "0") (by decide)).2.1 rfl).1,
   ((c9_falsy_retained tzEnv0 "k" (.str "0.0") (by decide)).2.2 rfl).1⟩

/-- Claim C10 (confirmed): when two distinct raw keys sanitize to the same
non-empty key and both items decode to retained values, the output holds
exactly one entry for that key with the decoded value of the later entry
(last-wins overwrite), at the top level and in the Map rule alike; and in
general the field loop never produces duplicate keys. -/
theorem c10_last_wins (mk : Tm → Int) (k1 k2 : String) (i1 i2 : Json)
    (v1 v2 : Value)
    (hne : k1 ≠ k2) (heq : sanitize_key k1 = sanitize_key k2)
    (hk : sanitize_key k1 ≠ "")
    (h1 : decodeField mk i1 = .ok (some v1))
    (h2 : decodeField mk i2 = .ok (some v2)) :
    transform_input mk [(k1, i1), (k2, i2)] =
      .ok [.map [(sanitize_key k1, v2)]] ∧
    process_map mk (.obj [(k1, i1), (k2, i2)]) =
      .ok (some [(sanitize_key k1, v2)]) ∧
    (∀ input m, processFields mk input [] = .ok m → (keysOf m).Nodup) := by
  have hk2 : sanitize_key k2 ≠ "" := by rw [← heq]; exact hk
  have hloop : processFields mk [(k1, i1), (k2, i2)] [] =
      .ok [(sanitize_key k1, v2)] := by
    simp [processFields, if_neg hk, if_neg hk2, h1, h2, dictInsert, heq]
  refine ⟨?_, ?_, ?_⟩
  · unfold transform_input
    rw [hloop]
    rfl
  · unfold process_map
    rw [hloop]
    rfl
  · intro input m hm
    exact (processFields_inv mk (fun _ => True) input [] m hm
      (fun _ _ _ _ => trivial) (fun _ _ => trivial) (by simp [keysOf])).2

/-- Claim C10 witness: raw keys "a " and " a" both sanitize to "a"; the
value of the later entry wins. -/
theorem c10_last_wins_witness :
    transform_input tzEnv0
        [("a ", .obj [("S", .str "x")]), (" a", .obj [("N", .str "7")])] =
      .ok [.map [("a", Value.int 7)]] ∧
    process_map tzEnv0
        (.obj [("a ", .obj [("S", .str "x")]), (" a", .obj [("N", .str "7")])]) =
      .ok (some [("a", Value.int 7)]) :=
  ⟨(c10_last_wins tzEnv0 "a " " a" (.obj [("S", .str "x")]) (.obj [("N", .str "7")])
      (.str "x") (.int 7) (by decide) (by decide) (by decide) rfl rfl).1,
   (c10_last_wins tzEnv0 "a " " a" (.obj [("S", .str "x")]) (.obj [("N", .str "7")])
      (.str "x") (.int 7) (by decide) (by decide) (by decide) rfl rfl).2.1⟩
